import Mathlib

/-!
Verification of the Wavefront Pattern repository (FastFlow farm scheduler and
MPI divide-and-merge engine) via a shallow embedding of its C++ sources.

Modelling conventions:
* `u64` values are modelled as `Nat`; where C++ wrap-around or truncated
  subtraction matters it is reproduced explicitly (Nat subtraction coincides
  with the u64 result in every reachable case, which is proved or noted).
* `double` values are modelled as `ℚ` (exact arithmetic); `std::cbrt` is an
  uninterpreted function parameter `cbrt : ℚ → ℚ`, since the claims are about
  which expression is computed, not about floating-point rounding.
* The flat `std::vector<double>` buffer of `SquareMtx` is a total function
  `Nat → ℚ`; out-of-range C++ accesses (undefined behaviour) correspond to
  indices `≥ length * length`.
-/

namespace Wavefront

/-- Pointwise update of a flat buffer, modelling `data[idx] = v`. -/
def writeAt (f : Nat → ℚ) (idx : Nat) (v : ℚ) : Nat → ℚ :=
  fun j => if j = idx then v else f j

/-- `SquareMtx` from `src/utils/square_matrix.h`: a length and a flat buffer
of `length * length` doubles (modelled as a total function). -/
structure SquareMtx where
  length : Nat
  data : Nat → ℚ

/-- `SquareMtx::GetIndex`: flat index of cell `(row, col)`. -/
def SquareMtx.GetIndex (m : SquareMtx) (row col : Nat) : Nat :=
  row * m.length + col

/-- The buffer produced by the `SquareMtx` constructor after running the
first `k` iterations of `InitializeMatrix`'s loop: starting from the
all-zero buffer, `data[m*length + m] = (m+1)/length` for `m < k`. -/
def initDataAux (n k : Nat) : Nat → ℚ :=
  (List.range k).foldl
    (fun d m => writeAt d (m * n + m) ((m + 1 : ℚ) / (n : ℚ)))
    (fun _ => 0)

/-- `SquareMtx::SquareMtx(length)`: allocates an all-zero buffer and runs
`InitializeMatrix`, seeding the main diagonal with `(m+1)/length`. -/
def SquareMtx.InitializeMatrix (n : Nat) : SquareMtx :=
  { length := n, data := initDataAux n n }

/-- `SquareMtx::GetValue`: returns `-1` on the uninitialized-matrix guard,
otherwise the buffer content at `GetIndex row col`. -/
def SquareMtx.GetValue (m : SquareMtx) (row col : Nat) : ℚ :=
  if m.length = 0 then -1 else m.data (m.GetIndex row col)

/-- `SquareMtx::SetValue` (symmetric-storage version): writes `val` to both
`data[GetIndex(row,col)]` and `data[GetIndex(col,row)]` unless the
uninitialized-matrix guard fires. -/
def SquareMtx.SetValue (m : SquareMtx) (row col : Nat) (val : ℚ) : SquareMtx :=
  if m.length = 0 then m
  else { m with
         data := writeAt (writeAt m.data (m.GetIndex row col) val)
                  (m.GetIndex col row) val }

/-- `SquareMtx::IsElemAlreadyDone`: the cell is considered computed iff its
stored value is nonzero (the C++ returns `data[GetIndex(row,col)] != 0`). -/
def SquareMtx.IsElemAlreadyDone (m : SquareMtx) (row col : Nat) : Prop :=
  m.data (m.GetIndex row col) ≠ 0

instance (m : SquareMtx) (row col : Nat) :
    Decidable (m.IsElemAlreadyDone row col) :=
  inferInstanceAs (Decidable (m.data (m.GetIndex row col) ≠ 0))

/-- `ComputeElement` from `src/utils/compute_elem.h`: resets the accumulator,
adds `mtx[elem_row][elem_row+i] * mtx[elem_col][elem_row+1+i]` for
`i < vec_length`, and applies `std::cbrt` to the total. The matrix is taken
by `const` reference, hence the embedding only returns a value. -/
def ComputeElement (cbrt : ℚ → ℚ) (mtx : SquareMtx)
    (elem_row elem_col vec_length : Nat) : ℚ :=
  cbrt ((List.range vec_length).foldl
    (fun res i =>
      res + mtx.GetValue elem_row (elem_row + i)
          * mtx.GetValue elem_col (elem_row + 1 + i))
    0)

theorem foldl_add_eq_sum (g : Nat → ℚ) (k : Nat) (init : ℚ) :
    (List.range k).foldl (fun res i => res + g i) init
      = init + Finset.sum (Finset.range k) g := by
  induction k generalizing init with
  | zero => simp
  | succ k ih =>
      rw [List.range_succ, List.foldl_append, Finset.sum_range_succ, ih]
      simp [add_assoc]

/-- C6: `ComputeElement` on rows `i < j` with vector length `k = j - i`
returns the cube root of `Σ_{t=0}^{k-1} mtx[i][i+t] * mtx[j][i+1+t]`; the
matrix is read through a `const` reference and never written (the embedding
is a pure value, the caller stores the result). -/
theorem computeElement_spec (cbrt : ℚ → ℚ) (mtx : SquareMtx) (i j k : Nat)
    (hij : i < j) (hk : k = j - i) :
    ComputeElement cbrt mtx i j k
      = cbrt (Finset.sum (Finset.range k)
          (fun t => mtx.GetValue i (i + t) * mtx.GetValue j (i + 1 + t))) := by
  unfold ComputeElement
  rw [foldl_add_eq_sum]
  rw [zero_add]

/-- Witness for C6 at `i = 0`, `j = 1`, `k = 1` on a concrete matrix. -/
theorem computeElement_spec_witness :
    0 < 1 ∧ 1 = 1 - 0 ∧
      ComputeElement id (SquareMtx.InitializeMatrix 2) 0 1 1
        = id (Finset.sum (Finset.range 1)
            (fun t => (SquareMtx.InitializeMatrix 2).GetValue 0 (0 + t)
              * (SquareMtx.InitializeMatrix 2).GetValue 1 (0 + 1 + t))) :=
  ⟨Nat.zero_lt_one, rfl,
    computeElement_spec id (SquareMtx.InitializeMatrix 2) 0 1 1
      Nat.zero_lt_one rfl⟩

/-- `Task` from `src/utils/ff_task.h` as used by `parallel_fastflow.cpp`:
a range of diagonal positions (first position is 1) plus the diagonal. -/
structure Task where
  start_range : Nat
  end_range : Nat
  diag : Nat
deriving DecidableEq, Repr

/-- The diagonal positions a task covers: `start_range .. end_range`
inclusive (empty when `end_range < start_range`, matching the
`for (num_elem = start; num_elem <= end; ...)` loop of `ComputeChunk`). -/
def taskPositions (t : Task) : List Nat :=
  List.range' t.start_range (t.end_range + 1 - t.start_range)

/-- Number of elements the `Worker` reports for a task:
`static_cast<int>(end_range - start_range) + 1`, which for the degenerate
u64 range `(s, s-1)` yields `0`; `end_range + 1 - start_range` in `Nat`
produces the same value on every dispatched task. -/
def taskSize (t : Task) : Nat := t.end_range + 1 - t.start_range

/-- The loop of `Emitter::SendTasks` (`parallel_fastflow.cpp:115-151`).
`chunk_size = std::ceil(elems_to_send / remaining_workers)` performs the
u64 division *first*, so the `std::ceil` is the identity and
`chunk = elems / workers` (integer division).  `end_range =
start_range + (chunk_size - 1)` in u64 wraps to `start_range - 1` when
`chunk_size = 0`; the `Nat` expression `start + chunk - 1` reproduces that
value for every `start ≥ 1`.  The clamp `if (end_range >= diag_length)
end_range = diag_length` is kept verbatim. -/
def sendTasksLoop (L diag : Nat) : Nat → Nat → Nat → List Task
  | _, 0, _ => []
  | elems, w + 1, start =>
    if elems = 0 then []
    else
      let chunk := elems / (w + 1)
      let e0 := start + chunk - 1
      let endR := if L ≤ e0 then L else e0
      { start_range := start, end_range := endR, diag := diag } ::
        sendTasksLoop L diag (if elems ≤ chunk then 0 else elems - chunk) w
          (endR + 1)

/-- `Emitter::SendTasks`: dispatches tasks for the diagonal of length `L`
(`send_info.diag_length`) to `W` workers, positions starting at 1. -/
def SendTasks (L W diag : Nat) : List Task :=
  sendTasksLoop L diag L W 1

theorem sendTasksLoop_elems_zero (L diag : Nat) (w start : Nat) :
    sendTasksLoop L diag 0 w start = [] := by
  cases w <;> simp [sendTasksLoop]

theorem sendTasksLoop_flatten (L diag : Nat) :
    ∀ w elems, 1 ≤ w → 1 ≤ elems → elems ≤ L →
      (sendTasksLoop L diag elems w (L - elems + 1)).flatMap taskPositions
        = List.range' (L - elems + 1) elems := by
  intro w
  induction w with
  | zero => intro elems hw _ _; omega
  | succ w ih =>
    intro elems _ he hL
    rw [sendTasksLoop]
    rw [if_neg (by omega)]
    simp only [List.flatMap_cons]
    by_cases hch : elems / (w + 1) = 0
    · -- degenerate iteration: chunk 0, empty range, same elems, same start
      have hw1 : 1 ≤ w := by
        rcases Nat.eq_zero_or_pos w with h0 | h1
        · subst h0; simp at hch; omega
        · exact h1
      have hstart : 1 ≤ L - elems + 1 := by omega
      have hend : (if L ≤ L - elems + 1 + elems / (w + 1) - 1 then L
          else L - elems + 1 + elems / (w + 1) - 1) = L - elems := by
        rw [hch]; rw [if_neg (by omega)]; omega
      rw [hch] at hend ⊢
      simp only [hend]
      have hpos : taskPositions
          { start_range := L - elems + 1, end_range := L - elems, diag := diag }
          = [] := by
        unfold taskPositions
        simp only
        rw [show L - elems + 1 - (L - elems + 1) = 0 by omega]
        rfl
      rw [hpos, List.nil_append]
      rw [if_neg (by omega)]
      rw [Nat.sub_zero]
      rw [show L - elems + 1 = L - elems + 1 from rfl]
      exact ih elems hw1 he hL
    · -- productive iteration: chunk ≥ 1
      have hchpos : 1 ≤ elems / (w + 1) := Nat.pos_of_ne_zero hch
      have hchle : elems / (w + 1) ≤ elems := Nat.div_le_self _ _
      set c := elems / (w + 1) with hc
      have hend : (if L ≤ L - elems + 1 + c - 1 then L
          else L - elems + 1 + c - 1) = L - elems + c := by
        split <;> omega
      simp only [hend]
      have hpos : taskPositions
          { start_range := L - elems + 1, end_range := L - elems + c, diag := diag }
          = List.range' (L - elems + 1) c := by
        unfold taskPositions
        simp only
        rw [show L - elems + c + 1 - (L - elems + 1) = c by omega]
      rw [hpos]
      by_cases hec : elems ≤ c
      · -- chunk swallows everything that is left
        have hec' : c = elems := by omega
        rw [if_pos hec]
        rw [sendTasksLoop_elems_zero]
        simp [hec']
      · -- recurse on the remaining elements with one fewer worker
        rw [if_neg hec]
        have hw1 : 1 ≤ w := by
          by_contra h0
          have : w = 0 := by omega
          subst this
          simp at hc
          omega
        have hrec := ih (elems - c) hw1 (by omega) (by omega)
        rw [show L - elems + c + 1 = L - (elems - c) + 1 by omega]
        rw [hrec]
        have happ := List.range'_append (L - elems + 1) c (elems - c) 1
        rw [one_mul] at happ
        rw [show L - (elems - c) + 1 = L - elems + 1 + c by omega]
        rw [happ]
        congr 1
        omega

/-- C1: for every matrix length `n`, diagonal `d ∈ [1, n-1]` and worker
count `W ≥ 1`, the concatenation of the position ranges of the tasks
dispatched by `Emitter::SendTasks` is exactly `[1, n-d]` in order: every
position of the diagonal is covered, no position is covered by two
dispatched tasks, and no position outside `[1, n-d]` is dispatched. -/
theorem sendTasks_coverage (n d W : Nat) (hd1 : 1 ≤ d) (hd2 : d ≤ n - 1)
    (hW : 1 ≤ W) :
    (SendTasks (n - d) W d).flatMap taskPositions = List.range' 1 (n - d) ∧
    ((SendTasks (n - d) W d).flatMap taskPositions).Nodup ∧
    ∀ p, p ∈ (SendTasks (n - d) W d).flatMap taskPositions ↔
      1 ≤ p ∧ p ≤ n - d := by
  have hL : 1 ≤ n - d := by omega
  have hmain : (SendTasks (n - d) W d).flatMap taskPositions
      = List.range' 1 (n - d) := by
    have := sendTasksLoop_flatten (n - d) d W (n - d) hW hL le_rfl
    rw [show n - d - (n - d) + 1 = 1 by omega] at this
    exact this
  refine ⟨hmain, ?_, ?_⟩
  · rw [hmain]; exact List.nodup_range' 1 (n - d)
  · intro p
    rw [hmain, List.mem_range'_1]
    omega

/-- Witness for C1 at `n = 5`, `d = 2`, `W = 2`. -/
theorem sendTasks_coverage_witness :
    (SendTasks 3 2 2).flatMap taskPositions = List.range' 1 3 ∧
    ((SendTasks 3 2 2).flatMap taskPositions).Nodup ∧
    ∀ p, p ∈ (SendTasks 3 2 2).flatMap taskPositions ↔ 1 ≤ p ∧ p ≤ 3 :=
  sendTasks_coverage 5 2 2 (by decide) (by decide) (by decide)

/-- C2 evaluation at the failing input (code bug): for a diagonal of
length 1 with 2 idle workers, `Emitter::SendTasks` produces the chunk-size
sequence `[0, 1]`, because `std::ceil(elems_to_send / remaining_workers)`
divides the u64s *before* the ceiling is taken and so computes the floor.
The first dispatched chunk is empty (the claimed floor is 1), the sizes
strictly increase (claimed monotonically non-increasing), and the first
size differs from `ceil(1/2) = 1` (claimed ceiling).  The intended
semantics is witnessed by `DiagInfo::ComputeFFChunkSize` in
`src/utils/diag_info.h`, which casts to `double` before `std::ceil` and
forces a floor of 1. -/
theorem sendTasks_chunk_floor_bug :
    (SendTasks 1 2 1).map taskSize = [0, 1] ∧
    (1 + 2 - 1) / 2 = 1 ∧
    ¬ ((SendTasks 1 2 1).map taskSize = [1]) ∧
    ((SendTasks 1 2 1).map taskSize).getD 0 0
      < ((SendTasks 1 2 1).map taskSize).getD 1 0 ∧
    { start_range := 1, end_range := 0, diag := 1 } ∈ SendTasks 1 2 1 ∧
    taskSize { start_range := 1, end_range := 0, diag := 1 } = 0 := by
  decide

/-- `SendInfo` from `src/utils/ff_send_info.h`: the Emitter's diagonal
cursor (current diagonal, its length, outstanding element count, and the
dispatch flag). -/
structure SendInfo where
  diag : Nat
  diag_length : Nat
  num_workers : Nat
  computed_elements : Nat
  send_tasks : Bool

/-- `SendInfo::PrepareNextDiagonal`: `diag++`, `diag_length--`,
`computed_elements = diag_length` (after the decrement), `send_tasks = true`. -/
def SendInfo.PrepareNextDiagonal (s : SendInfo) : SendInfo :=
  { s with
    send_tasks := true
    diag := s.diag + 1
    diag_length := s.diag_length - 1
    computed_elements := s.diag_length - 1 }

/-- The `SendInfo(num_workers, base_lenght)` constructor: fields zeroed,
`diag_length = base_lenght`, then one `PrepareNextDiagonal` call. -/
def SendInfo.init (num_workers base_length : Nat) : SendInfo :=
  SendInfo.PrepareNextDiagonal
    { diag := 0, diag_length := base_length, num_workers := num_workers,
      computed_elements := 0, send_tasks := false }

/-- One run of the farm's feedback loop (`Emitter::svc`,
`parallel_fastflow.cpp:79-107`), serialised at diagonal granularity: the
Emitter dispatches the current diagonal, the workers' completion messages
drive `computed_elements` to zero (their reported counts sum to the
diagonal length, by `sendTasks_coverage`), the Emitter then calls
`PrepareNextDiagonal` — one "diagonal advance" — and terminates when
`diag >= mtx.length`.  Returns (number of `PrepareNextDiagonal` calls made
inside `svc`, all dispatched tasks); the fuel argument bounds the number
of diagonals and is chosen large enough in `farmRun`. -/
def farmLoop (n : Nat) : SendInfo → Nat → Nat × List Task
  | _, 0 => (0, [])
  | s, fuel + 1 =>
    let tasks := SendTasks s.diag_length s.num_workers s.diag
    let s' := s.PrepareNextDiagonal
    if n ≤ s'.diag then (1, tasks)
    else
      let r := farmLoop n s' fuel
      (r.1 + 1, tasks ++ r.2)

/-- The whole FastFlow run for an `n × n` matrix and `W` workers: `main`
only starts the farm when `mtx_length > 1` (a 1×1 matrix needs no
computation), so otherwise nothing is advanced and nothing dispatched. -/
def farmRun (n W : Nat) : Nat × List Task :=
  if n ≤ 1 then (0, [])
  else farmLoop n (SendInfo.init W n) n

theorem farmLoop_advances (n : Nat) :
    ∀ fuel (s : SendInfo), 1 ≤ n - s.diag → n - s.diag ≤ fuel →
      (farmLoop n s fuel).1 = n - s.diag := by
  intro fuel
  induction fuel with
  | zero => intro s h1 h2; omega
  | succ fuel ih =>
    intro s h1 h2
    rw [farmLoop]
    have hdiag : s.PrepareNextDiagonal.diag = s.diag + 1 := rfl
    by_cases hstop : n ≤ s.PrepareNextDiagonal.diag
    · rw [if_pos hstop]
      rw [hdiag] at hstop
      omega
    · rw [if_neg hstop]
      rw [hdiag] at hstop
      have := ih s.PrepareNextDiagonal (by rw [hdiag]; omega)
        (by rw [hdiag]; omega)
      simp only [this, hdiag]
      omega

/-- C3: for every `n ≥ 1` the farm scheduler performs exactly `n - 1`
diagonal advances (`PrepareNextDiagonal` calls inside `Emitter::svc`)
before signalling termination, and for `n = 1` it performs zero advances
and dispatches no task at all (`main` never starts the farm). -/
theorem farm_advances (n W : Nat) (hn : 1 ≤ n) :
    (farmRun n W).1 = n - 1 ∧ (n = 1 → (farmRun n W).2 = []) := by
  unfold farmRun
  by_cases h1 : n ≤ 1
  · have : n = 1 := by omega
    subst this
    simp
  · rw [if_neg h1]
    constructor
    · have hd : (SendInfo.init W n).diag = 1 := rfl
      have := farmLoop_advances n n (SendInfo.init W n)
        (by rw [hd]; omega) (by rw [hd]; omega)
      rw [hd] at this
      exact this
    · intro h
      omega

/-- Witness for C3 at `n = 3`, `W = 2`. -/
theorem farm_advances_witness :
    (farmRun 3 2).1 = 3 - 1 ∧ (3 = 1 → (farmRun 3 2).2 = []) :=
  farm_advances 3 2 (by decide)

/-- The body of the loop in `ComputeRange` (`src/utils/compute_range.h`):
`row = elem - 1`, `col = row + num_diag`; the element is computed and
stored only if `IsElemAlreadyDone` is false.  The OpenMP `parallel for` is
modelled sequentially (each position touches cells no other position of
the same call touches, see `computeRange_frame`). -/
def ComputeRangeStep (cbrt : ℚ → ℚ) (num_diag : Nat)
    (m : SquareMtx) (elem : Nat) : SquareMtx :=
  if m.IsElemAlreadyDone (elem - 1) (elem - 1 + num_diag) then m
  else m.SetValue (elem - 1) (elem - 1 + num_diag)
    (ComputeElement cbrt m (elem - 1) (elem - 1 + num_diag) num_diag)

/-- `ComputeRange` from `src/utils/compute_range.h`: if
`start_range > length` the call returns immediately with the matrix
untouched; otherwise it runs the loop `for (elem = start_range;
elem <= end_range; ++elem)`.  Note that `end_range` is *not* truncated
anywhere in this function. -/
def ComputeRange (cbrt : ℚ → ℚ)
    (start_range end_range length num_diag : Nat) (mtx : SquareMtx) :
    SquareMtx :=
  if length < start_range then mtx
  else (List.range' start_range (end_range + 1 - start_range)).foldl
    (ComputeRangeStep cbrt num_diag) mtx

theorem computeRange_start_guard (cbrt : ℚ → ℚ)
    (s e len d : Nat) (m : SquareMtx) (h : len < s) :
    ComputeRange cbrt s e len d m = m := by
  unfold ComputeRange
  rw [if_pos h]

theorem sendTasksLoop_bounds (L diag : Nat) :
    ∀ w elems start, 1 ≤ start → start + elems = L + 1 →
      ∀ t ∈ sendTasksLoop L diag elems w start,
        start ≤ t.start_range ∧ t.end_range ≤ L := by
  intro w
  induction w with
  | zero => intro elems start _ _ t ht; simp [sendTasksLoop] at ht
  | succ w ih =>
    intro elems start hs hinv t ht
    rw [sendTasksLoop] at ht
    by_cases he : elems = 0
    · rw [if_pos he] at ht; simp at ht
    · rw [if_neg he] at ht
      simp only [List.mem_cons] at ht
      have hchle : elems / (w + 1) ≤ elems := Nat.div_le_self _ _
      have hendR : (if L ≤ start + elems / (w + 1) - 1 then L
          else start + elems / (w + 1) - 1) ≤ L := by
        split <;> omega
      rcases ht with hhead | htail
      · subst hhead
        exact ⟨le_rfl, hendR⟩
      · by_cases hch : elems / (w + 1) = 0
        · -- degenerate: endR = start - 1, same start, same elems
          rw [hch] at htail
          have he0 : (if L ≤ start + 0 - 1 then L else start + 0 - 1)
              = start - 1 := by
            rw [if_neg (by omega)]
            omega
          rw [he0] at htail
          rw [if_neg (by omega)] at htail
          rw [Nat.sub_zero] at htail
          rw [show start - 1 + 1 = start by omega] at htail
          exact ih elems start hs hinv t htail
        · -- productive: endR = start + chunk - 1
          have hchpos : 1 ≤ elems / (w + 1) := Nat.pos_of_ne_zero hch
          have he0 : (if L ≤ start + elems / (w + 1) - 1 then L
              else start + elems / (w + 1) - 1)
              = start + elems / (w + 1) - 1 := by
            split <;> omega
          rw [he0] at htail
          have hnext : (if elems ≤ elems / (w + 1) then 0
              else elems - elems / (w + 1)) = elems - elems / (w + 1) := by
            split <;> omega
          rw [hnext] at htail
          have := ih (elems - elems / (w + 1))
            (start + elems / (w + 1) - 1 + 1) (by omega) (by omega) t
            (by rw [show start + elems / (w + 1) - 1 + 1
                  = start + elems / (w + 1) - 1 + 1 from rfl]; exact htail)
          exact ⟨by omega, this.2⟩

/-- C8 as amended: (a) every task dispatched by `Emitter::SendTasks` has
`start_range ≥ 1` and `end_range ≤` the diagonal length (the emitter-side
clamp `if (end_range >= diag_length) end_range = diag_length` keeps every
dispatched range inside `[1, diag_length]`); (b) `ComputeRange` performs
no end-truncation at all — its only guard returns the matrix unchanged
when `start_range` exceeds the *matrix* length. -/
theorem dispatch_range_bounds :
    (∀ L W diag t, t ∈ SendTasks L W diag →
      1 ≤ t.start_range ∧ t.end_range ≤ L) ∧
    (∀ (cbrt : ℚ → ℚ) (s e len d : Nat) (m : SquareMtx), len < s →
      ComputeRange cbrt s e len d m = m) := by
  constructor
  · intro L W diag t ht
    exact sendTasksLoop_bounds L diag W L 1 le_rfl (by omega) t ht
  · exact computeRange_start_guard

/-- Witness for C8 (amended) on the dispatch of diagonal 1 of a 3×3
matrix to 2 workers, and a skipped `ComputeRange` call. -/
theorem dispatch_range_bounds_witness :
    (1 ≤ ({ start_range := 1, end_range := 1, diag := 1 } : Task).start_range ∧
      ({ start_range := 1, end_range := 1, diag := 1 } : Task).end_range ≤ 2) ∧
    ComputeRange id 4 5 3 1 (SquareMtx.InitializeMatrix 3)
      = SquareMtx.InitializeMatrix 3 :=
  ⟨dispatch_range_bounds.1 2 2 1 { start_range := 1, end_range := 1, diag := 1 }
      (by decide),
    dispatch_range_bounds.2 id 4 5 3 1 (SquareMtx.InitializeMatrix 3)
      (by decide)⟩

/-- Counterexample to C8 as stated: `ComputeRange` does *not* truncate a
range whose end exceeds the diagonal length.  On a 3×3 matrix, diagonal 1
has length 2, yet the call `ComputeRange(1, 3, 3, 1, mtx)` processes
position 3 as well: it writes cell `(2, 3)` — flat index 9, one past the
end of the 9-element buffer, i.e. outside the matrix and outside the
current diagonal.  (`cbrt` is interpreted as `x + 1` here; the claim must
hold for every interpretation of the uninterpreted kernel, and the write
happens regardless of the value written.) -/
theorem computeRange_no_truncation :
    (ComputeRange (fun x => x + 1) 1 3 3 1 (SquareMtx.InitializeMatrix 3)).data
        ((SquareMtx.InitializeMatrix 3).GetIndex 2 3)
      ≠ (SquareMtx.InitializeMatrix 3).data
        ((SquareMtx.InitializeMatrix 3).GetIndex 2 3) := by
  norm_num [ComputeRange, ComputeRangeStep, SquareMtx.InitializeMatrix,
    initDataAux, SquareMtx.GetIndex, SquareMtx.GetValue, SquareMtx.SetValue,
    SquareMtx.IsElemAlreadyDone, ComputeElement, writeAt, List.range',
    List.range_succ, List.foldl]

theorem flatIndex_inj (len a b c d : Nat) (hb : b < len) (hd : d < len)
    (h : a * len + b = c * len + d) : a = c ∧ b = d := by
  have hlen : 0 < len := by omega
  have ha : (a * len + b) / len = a := by
    rw [Nat.add_comm, Nat.add_mul_div_right _ _ hlen, Nat.div_eq_of_lt hb]
    omega
  have hc : (c * len + d) / len = c := by
    rw [Nat.add_comm, Nat.add_mul_div_right _ _ hlen, Nat.div_eq_of_lt hd]
    omega
  have hac : a = c := by rw [← ha, ← hc, h]
  constructor
  · exact hac
  · subst hac; omega

theorem setValue_length (m : SquareMtx) (r c : Nat) (v : ℚ) :
    (m.SetValue r c v).length = m.length := by
  unfold SquareMtx.SetValue
  split <;> rfl

theorem computeRangeStep_length (cbrt : ℚ → ℚ) (d : Nat) (m : SquareMtx)
    (q : Nat) : (ComputeRangeStep cbrt d m q).length = m.length := by
  unfold ComputeRangeStep
  split
  · rfl
  · exact setValue_length _ _ _ _

theorem computeRange_loop_preserves (cbrt : ℚ → ℚ) (d len p : Nat)
    (hp : 1 ≤ p) (hpd : p + d ≤ len) :
    ∀ (l : List Nat) (m : SquareMtx), m.length = len →
      (∀ q ∈ l, 1 ≤ q ∧ q + d ≤ len) →
      m.data ((p - 1) * len + (p - 1 + d)) ≠ 0 →
      (l.foldl (ComputeRangeStep cbrt d) m).data ((p - 1) * len + (p - 1 + d))
        = m.data ((p - 1) * len + (p - 1 + d)) := by
  intro l
  induction l with
  | nil => intro m _ _ _; rfl
  | cons q l ih =>
    intro m hm hq hnz
    have hq1 := hq q (List.mem_cons_self q l)
    have hstep : (ComputeRangeStep cbrt d m q).data
        ((p - 1) * len + (p - 1 + d))
        = m.data ((p - 1) * len + (p - 1 + d)) := by
      unfold ComputeRangeStep
      by_cases hdone : m.IsElemAlreadyDone (q - 1) (q - 1 + d)
      · rw [if_pos hdone]
      · rw [if_neg hdone]
        have hqp : q ≠ p := by
          intro hqp
          subst hqp
          apply hdone
          unfold SquareMtx.IsElemAlreadyDone SquareMtx.GetIndex
          rw [hm]
          simpa using hnz
        unfold SquareMtx.SetValue
        rw [if_neg (by rw [hm]; omega)]
        unfold SquareMtx.GetIndex
        rw [hm]
        simp only []
        unfold writeAt
        rw [if_neg, if_neg]
        · intro hcol
          have := flatIndex_inj len (p - 1) (p - 1 + d) (q - 1) (q - 1 + d)
            (by omega) (by omega) hcol
          omega
        · intro hcol
          have := flatIndex_inj len (p - 1) (p - 1 + d) (q - 1 + d) (q - 1)
            (by omega) (by omega) hcol
          omega
    rw [List.foldl_cons]
    rw [ih (ComputeRangeStep cbrt d m q)
      (by rw [computeRangeStep_length, hm])
      (fun r hr => hq r (List.mem_cons_of_mem q hr))
      (by rw [hstep]; exact hnz)]
    exact hstep

/-- C10: (a) a position of a `ComputeRange` call whose cell already holds
a nonzero value is skipped by the `IsElemAlreadyDone` test, and — because
distinct positions of the same call write disjoint cell pairs — such a
cell is never overwritten by the call; (b) when `start_range` exceeds
`length` the call returns with the matrix completely unchanged.  The
bounds `1 ≤ start` and `end + d ≤ len` state that the ranged cells lie
inside the matrix, which is a precondition of the C++ code (out-of-range
vector accesses are undefined behaviour). -/
theorem computeRange_frame :
    (∀ (cbrt : ℚ → ℚ) (s e len d : Nat) (m : SquareMtx) (p : Nat),
      m.length = len → 1 ≤ s → e + d ≤ len → s ≤ p → p ≤ e →
      m.data (m.GetIndex (p - 1) (p - 1 + d)) ≠ 0 →
      (ComputeRange cbrt s e len d m).data (m.GetIndex (p - 1) (p - 1 + d))
        = m.data (m.GetIndex (p - 1) (p - 1 + d))) ∧
    (∀ (cbrt : ℚ → ℚ) (s e len d : Nat) (m : SquareMtx), len < s →
      ComputeRange cbrt s e len d m = m) := by
  constructor
  · intro cbrt s e len d m p hm hs hed hsp hpe hnz
    have hidx : m.GetIndex (p - 1) (p - 1 + d)
        = (p - 1) * len + (p - 1 + d) := by
      unfold SquareMtx.GetIndex
      rw [hm]
    rw [hidx] at hnz ⊢
    unfold ComputeRange
    rw [if_neg (by omega)]
    exact computeRange_loop_preserves cbrt d len p (by omega) (by omega)
      (List.range' s (e + 1 - s)) m hm
      (fun q hq => by
        rw [List.mem_range'_1] at hq
        omega)
      hnz
  · exact computeRange_start_guard

/-- Witness for C10: a 2×2 matrix whose cell `(0,1)` was already set to 5
is left intact by `ComputeRange` over the single position of diagonal 1,
and a call with `start_range > length` changes nothing. -/
theorem computeRange_frame_witness :
    (((SquareMtx.InitializeMatrix 2).SetValue 0 1 5).data
        (((SquareMtx.InitializeMatrix 2).SetValue 0 1 5).GetIndex 0 1) ≠ 0) ∧
    (ComputeRange id 1 1 2 1 ((SquareMtx.InitializeMatrix 2).SetValue 0 1 5)).data
        (((SquareMtx.InitializeMatrix 2).SetValue 0 1 5).GetIndex 0 1)
      = ((SquareMtx.InitializeMatrix 2).SetValue 0 1 5).data
        (((SquareMtx.InitializeMatrix 2).SetValue 0 1 5).GetIndex 0 1) := by
  have hnz : ((SquareMtx.InitializeMatrix 2).SetValue 0 1 5).data
      (((SquareMtx.InitializeMatrix 2).SetValue 0 1 5).GetIndex 0 1) ≠ 0 := by
    norm_num [SquareMtx.InitializeMatrix, initDataAux, SquareMtx.GetIndex,
      SquareMtx.SetValue, writeAt, List.range_succ, List.foldl]
  refine ⟨hnz, ?_⟩
  exact computeRange_frame.1 id 1 1 2 1
    ((SquareMtx.InitializeMatrix 2).SetValue 0 1 5) 1
    (by norm_num [SquareMtx.InitializeMatrix, SquareMtx.SetValue])
    (by norm_num) (by norm_num) (by norm_num) (by norm_num) hnz

/-- `enum Role` from `parallel_mpi.cpp`: MASTER is the spec's Branch,
SUPPORTER its Leaf, LAST its Root. -/
inductive Role where
  | MASTER
  | SUPPORTER
  | LAST
deriving DecidableEq, Repr

/-- `WavefrontNode::GetRank`: `static_cast<int>(std::pow(2, iteration - 1)
* id)`; `std::pow` on these small naturals is exact, so this is
`2^(iteration-1) * id` (an `Int`, since supporter-side callers pass
`my_id - 2` which can be negative in C++). -/
def GetRank (id : Int) (iteration : Nat) : Int :=
  ((2 ^ (iteration - 1) : Nat) : Int) * id

/-- `WavefrontNode::GetId`: `rank / std::pow(2, iteration - 1)` truncated
to `int`; for the nonnegative ranks used this is Nat division. -/
def GetId (rank : Nat) (iteration : Nat) : Nat :=
  rank / 2 ^ (iteration - 1)

/-- The role branch of `WavefrontNode::SetRole`
(`parallel_mpi.cpp:180-213`): LAST iff `my_id == 0 && active_nodes == 1`,
else MASTER iff `my_id` even and `my_id + 1 < active_nodes`, else
SUPPORTER. -/
def SetRole (my_id active_nodes : Nat) : Role :=
  if my_id = 0 ∧ active_nodes = 1 then Role.LAST
  else if my_id % 2 = 0 ∧ my_id + 1 < active_nodes then Role.MASTER
  else Role.SUPPORTER

/-- The `my_supporters` array written by `SetRole`: a MASTER absorbs
`GetRank(my_id + 1)` and, when `(my_id + 2) + 1 == active_nodes`, also
`GetRank(my_id + 2)`; the absent slot is the sentinel `-1`. -/
def supportersOf (my_id active_nodes iteration : Nat) : Int × Int :=
  match SetRole my_id active_nodes with
  | Role.MASTER =>
      (GetRank ((my_id : Int) + 1) iteration,
       if my_id + 2 + 1 = active_nodes then GetRank ((my_id : Int) + 2) iteration
       else -1)
  | _ => (-1, -1)

/-- The `my_master` field written by `SetRole`: a SUPPORTER with even id
sends to `GetRank(my_id - 2)`, an odd one to `GetRank(my_id - 1)`. -/
def masterOf (my_id active_nodes iteration : Nat) : Int :=
  match SetRole my_id active_nodes with
  | Role.SUPPORTER =>
      if my_id % 2 = 0 then GetRank ((my_id : Int) - 2) iteration
      else GetRank ((my_id : Int) - 1) iteration
  | _ => -1

/-- `WavefrontNode::UpdateStatus`: halves `active_nodes` and `my_id`
(integer division) at the end of every round a MASTER survives. -/
def UpdateStatus (active_nodes my_id : Nat) : Nat × Nat :=
  (active_nodes / 2, my_id / 2)

/-- `active_nodes` at the start of iteration `k + 1`, i.e. after `k`
`UpdateStatus` calls from the initial value `P = total_nodes`. -/
def activeNodesAfter (P : Nat) : Nat → Nat
  | 0 => P
  | k + 1 => (UpdateStatus (activeNodesAfter P k) 0).1

/-- `my_id` at the start of iteration `k + 1`, after `k` `UpdateStatus`
calls from the initial value `my_id = my_rank`. -/
def myIdAfter (rank : Nat) : Nat → Nat
  | 0 => rank
  | k + 1 => (UpdateStatus 0 (myIdAfter rank k)).2

theorem updateStatus_closed (P rank : Nat) :
    ∀ k, activeNodesAfter P k = P / 2 ^ k ∧ myIdAfter rank k = rank / 2 ^ k := by
  intro k
  induction k with
  | zero => simp [activeNodesAfter, myIdAfter]
  | succ k ih =>
    unfold activeNodesAfter myIdAfter UpdateStatus
    rw [ih.1, ih.2]
    constructor <;>
      · rw [Nat.div_div_eq_div_mul, pow_succ]

/-- Counterexample to C4 as stated: at `P = 3`, original rank `2`,
round `r = 2` we have `active_count = 3 / 2 = 1`, yet the role the code
recomputes from `(rank, round)` is SUPPORTER (Leaf), not Root: `SetRole`
additionally requires the logical id to be 0 (`my_id == 0 &&
active_nodes == 1`), and here `id = 2 / 2 = 1`. -/
theorem setRole_root_counterexample :
    activeNodesAfter 3 (2 - 1) = 1 ∧
    SetRole (GetId 2 2) (activeNodesAfter 3 (2 - 1)) = Role.SUPPORTER ∧
    SetRole (GetId 2 2) (activeNodesAfter 3 (2 - 1)) ≠ Role.LAST := by
  decide

/-- C4 as amended: for every original rank and round `r ≥ 1`, with
`id = rank / 2^(r-1)` and `active = P / 2^(r-1)` (which is what the
iterated `UpdateStatus` halving computes, `updateStatus_closed`):
Root iff `active = 1` *and* `id = 0`; Branch iff `id` is even and
`id + 1 < active`; Leaf otherwise; and the physical-rank mapping is
`rank(id, r) = id * 2^(r-1)`.  The `P = 4` scenario of the claim holds
verbatim: in round 1 ids 0 and 2 are Branches absorbing Leaves 1 and 3,
in round 2 rank 0 (id 0) is a Branch absorbing physical rank 2, and in
round 3 rank 0 is Root. -/
theorem setRole_spec :
    (∀ P rank r : Nat, 1 ≤ r →
      (SetRole (GetId rank r) (P / 2 ^ (r - 1)) = Role.LAST ↔
        P / 2 ^ (r - 1) = 1 ∧ GetId rank r = 0) ∧
      (SetRole (GetId rank r) (P / 2 ^ (r - 1)) = Role.MASTER ↔
        GetId rank r % 2 = 0 ∧ GetId rank r + 1 < P / 2 ^ (r - 1)) ∧
      (SetRole (GetId rank r) (P / 2 ^ (r - 1)) = Role.SUPPORTER ↔
        ¬(P / 2 ^ (r - 1) = 1 ∧ GetId rank r = 0) ∧
        ¬(GetId rank r % 2 = 0 ∧ GetId rank r + 1 < P / 2 ^ (r - 1))) ∧
      GetRank ((GetId rank r : Nat) : Int) r
        = ((GetId rank r : Nat) : Int) * ((2 ^ (r - 1) : Nat) : Int)) ∧
    (SetRole 0 4 = Role.MASTER ∧ SetRole 1 4 = Role.SUPPORTER ∧
     SetRole 2 4 = Role.MASTER ∧ SetRole 3 4 = Role.SUPPORTER ∧
     supportersOf 0 4 1 = (1, -1) ∧ supportersOf 2 4 1 = (3, -1) ∧
     masterOf 1 4 1 = 0 ∧ masterOf 3 4 1 = 2 ∧
     SetRole (GetId 0 2) (4 / 2) = Role.MASTER ∧
     SetRole (GetId 2 2) (4 / 2) = Role.SUPPORTER ∧
     supportersOf 0 2 2 = (2, -1) ∧ masterOf 1 2 2 = 0 ∧
     SetRole (GetId 0 3) (4 / 4) = Role.LAST) := by
  constructor
  · intro P rank r _
    unfold SetRole
    refine ⟨?_, ?_, ?_, ?_⟩
    · split_ifs with h1 h2 <;> simp_all <;> omega
    · split_ifs with h1 h2 <;> simp_all
    · split_ifs with h1 h2 <;> simp_all <;> tauto
    · unfold GetRank
      rw [mul_comm]
  · decide

/-- Witness for C4 (amended) at `P = 5`, `rank = 3`, `r = 2`. -/
theorem setRole_spec_witness :
    (SetRole (GetId 3 2) (5 / 2 ^ (2 - 1)) = Role.LAST ↔
      5 / 2 ^ (2 - 1) = 1 ∧ GetId 3 2 = 0) ∧
    (SetRole (GetId 3 2) (5 / 2 ^ (2 - 1)) = Role.MASTER ↔
      GetId 3 2 % 2 = 0 ∧ GetId 3 2 + 1 < 5 / 2 ^ (2 - 1)) ∧
    (SetRole (GetId 3 2) (5 / 2 ^ (2 - 1)) = Role.SUPPORTER ↔
      ¬(5 / 2 ^ (2 - 1) = 1 ∧ GetId 3 2 = 0) ∧
      ¬(GetId 3 2 % 2 = 0 ∧ GetId 3 2 + 1 < 5 / 2 ^ (2 - 1))) ∧
    GetRank ((GetId 3 2 : Nat) : Int) 2
      = ((GetId 3 2 : Nat) : Int) * ((2 ^ (2 - 1) : Nat) : Int) :=
  setRole_spec.1 5 3 2 (by decide)

/-- `const u64 sub_mtx_length = static_cast<u64>(std::ceil(my_mtx.length
/ active_nodes))` (`parallel_mpi.cpp`, `MPIWavefront`): the u64/int
division happens *before* `std::ceil`, so the computed sub-block size is
the floor of the quotient. -/
def subMtxLength (mtx_length active_nodes : Nat) : Nat :=
  mtx_length / active_nodes

/-- C5 evaluation at the failing input (code bug): for `n = 5` and
`P = 2` active units, round 1 computes `sub_mtx_length = 5 / 2 = 2`
instead of the claimed `ceil(5/2) = 3`, because the integer division
precedes the dead `std::ceil`.  The two units then cover only
`2 * 2 = 4 < 5` rows, so row 4 of the matrix is never assigned to any
unit.  The round bookkeeping itself matches the claim:
`active_count(r) = P / 2^(r-1)` and `id(r) = rank / 2^(r-1)`
(`updateStatus_closed`, instantiated below). -/
theorem subMtxLength_floor_bug :
    subMtxLength 5 2 = 2 ∧
    (5 + 2 - 1) / 2 = 3 ∧
    subMtxLength 5 2 ≠ (5 + 2 - 1) / 2 ∧
    subMtxLength 5 2 * 2 < 5 ∧
    activeNodesAfter 2 (2 - 1) = 2 / 2 ^ (2 - 1) ∧
    myIdAfter 1 (2 - 1) = 1 / 2 ^ (2 - 1) := by
  decide

/-- The clamp in `parallel_mpi.cpp`'s `main` (lines 266-272): only when
`num_nodes > mtx_length` is the rank count forced down to `mtx_length`;
there is no lower clamp. -/
def mpiNumNodes (num_nodes mtx_length : Nat) : Nat :=
  if mtx_length < num_nodes then mtx_length else num_nodes

/-- The worker-count setup in `parallel_fastflow.cpp`'s `main` (lines
204-210): a `u8` defaulting to 4, overwritten by
`hardware_concurrency() - 1` when the probe is nonzero, overwritten again
by `argv[2]` when present; every store into the `u8` truncates mod 256.
No comparison with the matrix length occurs anywhere. -/
def ffNumWorkers (hardware_concurrency : Nat) (arg : Option Nat) : Nat :=
  match arg with
  | some w => w % 256
  | none =>
    if 0 < hardware_concurrency then (hardware_concurrency - 1) % 256
    else 4

/-- Counterexample to C9 as stated: (a) the FastFlow `main` proceeds with
*zero* workers when `hardware_concurrency() == 1` and no argument is
given; (b) the MPI `main` clamps `num_nodes` down to `mtx_length = 0`
when `n = 0`, i.e. proceeds with zero ranks; (c) the FastFlow `main`
never clamps the worker count to at most `n` (here 100 workers survive,
whatever the matrix length). -/
theorem parallelism_clamp_counterexample :
    ffNumWorkers 1 none = 0 ∧
    mpiNumNodes 3 0 = 0 ∧
    ffNumWorkers 9 (some 100) = 100 := by
  decide

/-- C9 as amended: only the MPI engine clamps, and only from above —
`num_nodes` becomes `min(P, n)`, which is at least 1 whenever both the
communicator size `P` and the matrix length `n` are at least 1.  (The
FastFlow engine performs no clamping at all, and `n = 0` drives the MPI
rank count to 0: `parallelism_clamp_counterexample`.) -/
theorem mpiNumNodes_clamp (P n : Nat) (hP : 1 ≤ P) (hn : 1 ≤ n) :
    mpiNumNodes P n = min P n ∧
    1 ≤ mpiNumNodes P n ∧ mpiNumNodes P n ≤ n := by
  unfold mpiNumNodes
  split <;> omega

/-- Witness for C9 (amended) at `P = 5`, `n = 3`. -/
theorem mpiNumNodes_clamp_witness :
    mpiNumNodes 5 3 = min 5 3 ∧ 1 ≤ mpiNumNodes 5 3 ∧ mpiNumNodes 5 3 ≤ 3 :=
  mpiNumNodes_clamp 5 3 (by decide) (by decide)

theorem initDataAux_succ (n k : Nat) :
    initDataAux n (k + 1)
      = writeAt (initDataAux n k) (k * n + k) (((k : ℚ) + 1) / (n : ℚ)) := by
  unfold initDataAux
  rw [List.range_succ, List.foldl_append, List.foldl_cons, List.foldl_nil]

theorem initDataAux_not_diag (n : Nat) :
    ∀ k idx, (∀ m, m < k → idx ≠ m * n + m) → initDataAux n k idx = 0 := by
  intro k
  induction k with
  | zero => intro idx _; rfl
  | succ k ih =>
    intro idx h
    rw [initDataAux_succ]
    unfold writeAt
    rw [if_neg (h k (Nat.lt_succ_self k))]
    exact ih idx (fun m hm => h m (Nat.lt_succ_of_lt hm))

theorem initDataAux_diag (n : Nat) :
    ∀ k m, m < k → initDataAux n k (m * n + m) = ((m : ℚ) + 1) / (n : ℚ) := by
  intro k
  induction k with
  | zero => intro m hm; omega
  | succ k ih =>
    intro m hm
    rw [initDataAux_succ]
    unfold writeAt
    by_cases hmk : m = k
    · subst hmk
      rw [if_pos rfl]
    · rw [if_neg ?_]
      · exact ih m (by omega)
      · intro heq
        have h2 : m * (n + 1) = k * (n + 1) := by
          rw [Nat.mul_succ, Nat.mul_succ]
          exact heq
        exact hmk (Nat.eq_of_mul_eq_mul_right (Nat.succ_pos n) h2)

theorem setValue_data (m : SquareMtx) (row col : Nat) (v : ℚ)
    (h : m.length ≠ 0) (idx : Nat) :
    (m.SetValue row col v).data idx
      = if idx = col * m.length + row then v
        else if idx = row * m.length + col then v
        else m.data idx := by
  unfold SquareMtx.SetValue
  rw [if_neg h]
  unfold writeAt SquareMtx.GetIndex
  rfl

/-- Symmetric storage: the matrix reads the same at `(i, j)` and
`(j, i)` for all in-range cells. -/
def SquareMtx.IsSymm (m : SquareMtx) : Prop :=
  ∀ i j, i < m.length → j < m.length →
    m.data (m.GetIndex i j) = m.data (m.GetIndex j i)

theorem setValue_preserves_symm (m : SquareMtx) (row col : Nat) (v : ℚ)
    (hrow : row < m.length) (hcol : col < m.length) (hsym : m.IsSymm) :
    (m.SetValue row col v).IsSymm := by
  intro i j hi hj
  rw [setValue_length] at hi hj
  have hlen : m.length ≠ 0 := by omega
  have hgi : ∀ a b : Nat, (m.SetValue row col v).GetIndex a b
      = a * m.length + b := by
    intro a b
    unfold SquareMtx.GetIndex
    rw [setValue_length]
  rw [hgi, hgi, setValue_data m row col v hlen, setValue_data m row col v hlen]
  have hAD : i * m.length + j = col * m.length + row ↔
      j * m.length + i = row * m.length + col := by
    constructor
    · intro h
      obtain ⟨h1, h2⟩ := flatIndex_inj m.length i j col row hj hrow h
      subst h1; subst h2; rfl
    · intro h
      obtain ⟨h1, h2⟩ := flatIndex_inj m.length j i row col hi hcol h
      subst h1; subst h2; rfl
  have hBC : i * m.length + j = row * m.length + col ↔
      j * m.length + i = col * m.length + row := by
    constructor
    · intro h
      obtain ⟨h1, h2⟩ := flatIndex_inj m.length i j row col hj hcol h
      subst h1; subst h2; rfl
    · intro h
      obtain ⟨h1, h2⟩ := flatIndex_inj m.length j i col row hi hrow h
      subst h1; subst h2; rfl
  by_cases hA : i * m.length + j = col * m.length + row
  · rw [if_pos hA]
    by_cases hC : j * m.length + i = col * m.length + row
    · rw [if_pos hC]
    · rw [if_neg hC, if_pos (hAD.mp hA)]
  · by_cases hB : i * m.length + j = row * m.length + col
    · rw [if_neg hA, if_pos hB, if_pos (hBC.mp hB)]
    · have hC : ¬ j * m.length + i = col * m.length + row :=
        fun h => hB (hBC.mpr h)
      have hD : ¬ j * m.length + i = row * m.length + col :=
        fun h => hA (hAD.mpr h)
      rw [if_neg hA, if_neg hB, if_neg hC, if_neg hD]
      have := hsym i j hi hj
      unfold SquareMtx.GetIndex at this
      exact this

theorem initializeMatrix_symm (n : Nat) :
    (SquareMtx.InitializeMatrix n).IsSymm := by
  intro i j hi hj
  by_cases hij : i = j
  · subst hij; rfl
  · show initDataAux n n ((SquareMtx.InitializeMatrix n).GetIndex i j)
      = initDataAux n n ((SquareMtx.InitializeMatrix n).GetIndex j i)
    have hne : ∀ a b : Nat, a < n → b < n → a ≠ b →
        ∀ m, m < n → a * n + b ≠ m * n + m := by
      intro a b ha hb hab m hm heq
      obtain ⟨h1, h2⟩ := flatIndex_inj n a b m m hb hm heq
      exact hab (h1.trans h2.symm)
    show initDataAux n n (i * n + j) = initDataAux n n (j * n + i)
    rw [initDataAux_not_diag n n _ (hne i j hi hj hij),
      initDataAux_not_diag n n _ (hne j i hj hi (fun h => hij h.symm))]

theorem foldl_setValue_symm (n : Nat) :
    ∀ (writes : List (Nat × Nat × ℚ)) (m : SquareMtx), m.length = n →
      (∀ w ∈ writes, w.1 < n ∧ w.2.1 < n) → m.IsSymm →
      (writes.foldl (fun acc w => acc.SetValue w.1 w.2.1 w.2.2) m).IsSymm := by
  intro writes
  induction writes with
  | nil => intro m _ _ hs; exact hs
  | cons w ws ih =>
    intro m hm hb hs
    rw [List.foldl_cons]
    have hw := hb w (List.mem_cons_self w ws)
    exact ih (m.SetValue w.1 w.2.1 w.2.2)
      (by rw [setValue_length]; exact hm)
      (fun u hu => hb u (List.mem_cons_of_mem w hu))
      (setValue_preserves_symm m w.1 w.2.1 w.2.2
        (by omega) (by omega) hs)

/-- C7: immediately after `SquareMtx(n)` every main-diagonal cell `(i,i)`
holds `(i+1)/n` and every off-diagonal cell holds 0; every
`SetValue(row, col, val)` leaves the written pair equal
(`cell(row,col) == cell(col,row)`), preserves symmetry of the whole
matrix, and hence every state reachable from construction by in-range
`SetValue` calls is symmetric. -/
theorem squareMtx_invariants (n : Nat) :
    (∀ i, i < n →
      (SquareMtx.InitializeMatrix n).GetValue i i = ((i : ℚ) + 1) / (n : ℚ)) ∧
    (∀ i j, i < n → j < n → i ≠ j →
      (SquareMtx.InitializeMatrix n).GetValue i j = 0) ∧
    (∀ (m : SquareMtx) (row col : Nat) (v : ℚ),
      (m.SetValue row col v).GetValue row col
        = (m.SetValue row col v).GetValue col row) ∧
    (∀ (m : SquareMtx) (row col : Nat) (v : ℚ),
      row < m.length → col < m.length → m.IsSymm →
      (m.SetValue row col v).IsSymm) ∧
    (∀ (writes : List (Nat × Nat × ℚ)),
      (∀ w ∈ writes, w.1 < n ∧ w.2.1 < n) →
      (writes.foldl (fun acc w => acc.SetValue w.1 w.2.1 w.2.2)
        (SquareMtx.InitializeMatrix n)).IsSymm) := by
  refine ⟨?_, ?_, ?_, ?_, ?_⟩
  · intro i hi
    unfold SquareMtx.GetValue
    rw [if_neg (by show ¬ n = 0; omega)]
    show initDataAux n n (i * n + i) = ((i : ℚ) + 1) / (n : ℚ)
    exact initDataAux_diag n n i hi
  · intro i j hi hj hij
    unfold SquareMtx.GetValue
    rw [if_neg (by show ¬ n = 0; omega)]
    show initDataAux n n (i * n + j) = 0
    refine initDataAux_not_diag n n _ ?_
    intro m hm heq
    obtain ⟨h1, h2⟩ := flatIndex_inj n i j m m hj hm heq
    exact hij (h1.trans h2.symm)
  · intro m row col v
    by_cases hlen : m.length = 0
    · unfold SquareMtx.GetValue
      rw [setValue_length, if_pos hlen, if_pos hlen]
    · unfold SquareMtx.GetValue
      rw [setValue_length, if_neg hlen, if_neg hlen]
      have hgi : ∀ a b : Nat, (m.SetValue row col v).GetIndex a b
          = a * m.length + b := by
        intro a b
        unfold SquareMtx.GetIndex
        rw [setValue_length]
      rw [hgi, hgi, setValue_data m row col v hlen,
        setValue_data m row col v hlen]
      by_cases hab : row * m.length + col = col * m.length + row
      · rw [if_pos hab, if_pos rfl]
      · rw [if_neg hab, if_pos rfl, if_pos rfl]
  · intro m row col v hrow hcol hsym
    exact setValue_preserves_symm m row col v hrow hcol hsym
  · intro writes hb
    exact foldl_setValue_symm n writes (SquareMtx.InitializeMatrix n) rfl hb
      (initializeMatrix_symm n)

/-- Witness for C7 at `n = 2`: the diagonal seed, an off-diagonal zero,
and the symmetric pair after a concrete `SetValue`. -/
theorem squareMtx_invariants_witness :
    (SquareMtx.InitializeMatrix 2).GetValue 0 0 = ((0 : ℚ) + 1) / (2 : ℚ) ∧
    (SquareMtx.InitializeMatrix 2).GetValue 0 1 = 0 ∧
    ((SquareMtx.InitializeMatrix 2).SetValue 0 1 5).GetValue 0 1
      = ((SquareMtx.InitializeMatrix 2).SetValue 0 1 5).GetValue 1 0 :=
  ⟨(squareMtx_invariants 2).1 0 (by decide),
    (squareMtx_invariants 2).2.1 0 1 (by decide) (by decide) (by decide),
    (squareMtx_invariants 2).2.2.1 (SquareMtx.InitializeMatrix 2) 0 1 5⟩

end Wavefront
